import Mathlib

/-!
Verification of the libcanard DSDL compiler scripts.

The development shallowly embeds the parts of the repository that the
claims are about:

* `compile_dsdl.py`: `topological_sort` (a Kahn-style reduction driven by
  Python `set.pop()`, modelled by an explicit choice function `pick`),
  and the dependency-map construction of `solve_types_dependency`.
* `dsdl_compiler/libcanard_dsdl_compiler/__init__.py`:
  `expand_to_next_full`, `get_max_size`, `type_to_c_type`,
  `write_generated_data`, the whitespace normalisation performed at the
  end of `generate_one_type`, and the attribute injection
  `inject_cpp_types`.

Python dictionaries are modelled as association lists (key order =
insertion order; full type names are unique in every compile, so
theorems carry a `Nodup` hypothesis on the key list where it matters).
Python sets of names are modelled as duplicate-free lists; removal of an
element from a set is `List.filter` by disequality.  The arbitrary order
of `set.pop()` is modelled by quantifying over a choice function `pick`
together with the hypothesis that it returns a member of its argument.
Fallible Python code (KeyError / TypeError / AssertionError paths)
returns `Option`.
-/

namespace LibcanardSpec

/-! ## `compile_dsdl.topological_sort`

Source (`src/compile_dsdl.py`):

    def topological_sort(dependencies):
        def depends_on(dependencies, package):
            result = set()
            for key, packages in dependencies.items():
                if package in packages:
                    result.add(key)
            return result
        S = {k for k, v in dependencies.items() if not v}
        while S:
            current = S.pop()
            yield current
            for m in depends_on(dependencies, current):
                dependencies[m].remove(current)
                if not dependencies[m]:
                    S.add(m)
        if any(dep for dep in dependencies.values()):
            raise ValueError("Cyclic dependency graph.")
-/

abbrev Name := String

/-- The dependency dictionary: each key mapped to the list of its
dependencies (a Python `dict` of `set`s, as an association list). -/
abbrev Graph := List (Name × List Name)

/-- Dictionary lookup, `dependencies[k]` (keys are unique full names). -/
def depsOf (g : Graph) (k : Name) : Option (List Name) :=
  match g with
  | [] => none
  | kv :: rest => if kv.1 = k then some kv.2 else depsOf rest k

/-- Effect of the inner removal loop: `dependencies[m].remove(current)`
for every `m` that depends on `current` (removing from sets that do not
contain `current` is a no-op, so the guard can be dropped). -/
def removeDep (g : Graph) (current : Name) : Graph :=
  g.map (fun kv => (kv.1, kv.2.filter (fun d => decide (d ≠ current))))

/-- The names `m` whose dependency set just became empty after
`dependencies[m].remove(current)`; these are added to `S`. -/
def newlyFree (g : Graph) (current : Name) : List Name :=
  (g.filter (fun kv =>
    decide (current ∈ kv.2) && (kv.2.filter (fun d => decide (d ≠ current))).isEmpty)).map
    Prod.fst

/-- `S = {k for k, v in dependencies.items() if not v}`. -/
def initialS (g : Graph) : List Name :=
  (g.filter (fun kv => kv.2.isEmpty)).map Prod.fst

/-- The `while S:` loop.  `pick` models the arbitrary choice made by
`S.pop()`.  The fuel argument only bounds the iteration count; each
iteration removes the picked element from `S` and every name enters `S`
at most once, so `g.length` iterations always suffice. -/
def topoLoop (pick : List Name → Name) : Nat → List Name → Graph → List Name × Graph
  | 0, _, g => ([], g)
  | fuel + 1, S, g =>
    match S with
    | [] => ([], g)
    | _ :: _ =>
      let current := pick S
      let g2 := removeDep g current
      let S2 := S.erase current ++ newlyFree g current
      let r := topoLoop pick fuel S2 g2
      (current :: r.1, r.2)

/-- `topological_sort`: the sequence of yielded names together with the
final (mutated) dependency dictionary. -/
def topological_sort (pick : List Name → Name) (g : Graph) : List Name × Graph :=
  topoLoop pick g.length (initialS g) g

/-- The final check `any(dep for dep in dependencies.values())`:
`true` means `ValueError("Cyclic dependency graph.")` is raised. -/
def cyclicError (g : Graph) : Bool :=
  g.any (fun kv => !kv.2.isEmpty)

/-- Direct dependency as recorded in the dictionary: `b` is a member of
the dependency set of `a`. -/
def DirectDep (g : Graph) (a b : Name) : Prop :=
  ∃ l, depsOf g a = some l ∧ b ∈ l

/-- `a` depends on `b` directly or transitively. -/
def TransDep (g : Graph) (a b : Name) : Prop :=
  Relation.TransGen (DirectDep g) a b

/-- Position of the first occurrence of a name in the output sequence. -/
def posIn (out : List Name) (x : Name) : Nat :=
  match out with
  | [] => 0
  | c :: rest => if c = x then 0 else posIn rest x + 1

/-- Like `removeDep`, iterated over a list of already-yielded names:
the dependency dictionary after every name in `names` has been removed
from every dependency set. -/
def removeAll (g : Graph) (names : List Name) : Graph :=
  g.map (fun kv => (kv.1, kv.2.filter (fun d => decide (d ∉ names))))

/-- One legal behaviour of `set.pop()`: always take the first element of
the current representation. -/
def pickFirst (S : List Name) : Name := S.headD ""

/-- Another legal behaviour of `set.pop()`: always take the last element
of the current representation. -/
def pickLast (S : List Name) : Name := S.getLastD ""

/-! ## `expand_to_next_full` (`libcanard_dsdl_compiler/__init__.py`)

    def expand_to_next_full(size):
        if size <= 8:
            return 8
        elif size <= 16:
            return 16
        elif size <= 32:
            return 32
        elif size <=64:
            return 64

(Falling off the end for `size > 64` returns Python `None`.) -/

def expand_to_next_full (size : Nat) : Option Nat :=
  if size ≤ 8 then some 8
  else if size ≤ 16 then some 16
  else if size ≤ 32 then some 32
  else if size ≤ 64 then some 64
  else none

/-! ## The DSDL type model (input of `type_to_c_type` and
`solve_types_dependency`)

The parsed types delivered by `uavcan.dsdl` carry a `category`
(primitive / array / compound / void), and per category: primitives a
`kind`, `bitlen` and `cast_mode`; arrays a `mode`, `max_size` and
`value_type`; compounds a `full_name` and `get_max_bitlen()` (held here
as a plain field); voids a `bitlen`. -/

inductive Category where
  | primitive
  | array
  | compound
  | void
deriving DecidableEq

inductive PrimKind where
  | float
  | boolean
  | signedInt
  | unsignedInt
deriving DecidableEq

inductive CastMode where
  | saturated
  | truncated
deriving DecidableEq

inductive ArrayMode where
  | staticMode
  | dynamicMode
deriving DecidableEq

inductive DsdlType where
  | primitive (kind : PrimKind) (bitlen : Nat) (cast_mode : CastMode)
  | array (mode : ArrayMode) (max_size : Nat) (value_type : DsdlType)
  | compound (full_name : Name) (max_bitlen : Nat)
  | void (bitlen : Nat)
deriving DecidableEq

def DsdlType.category : DsdlType → Category
  | DsdlType.primitive _ _ _ => Category.primitive
  | DsdlType.array _ _ _ => Category.array
  | DsdlType.compound _ _ => Category.compound
  | DsdlType.void _ => Category.void

/-- `t.max_size` (only ever read on array types). -/
def DsdlType.maxSizeAttr : DsdlType → Nat
  | DsdlType.array _ m _ => m
  | _ => 0

/-- Python `int.bit_length()`. -/
def bit_length (n : Nat) : Nat := if n = 0 then 0 else Nat.log2 n + 1

/-- `get_max_size`:

    def get_max_size(bits, unsigned):
        if unsigned:
            return (2 ** bits) -1
        else:
            return (2 ** (bits-1)) -1

(`bits ≥ 1` whenever called; `Nat` subtraction agrees there). -/
def get_max_size (bits : Nat) (unsigned : Bool) : Nat :=
  if unsigned then 2 ^ bits - 1 else 2 ^ (bits - 1) - 1

/-- The dictionary returned by `type_to_c_type`.  The four trailing
fields only appear in the dictionary built for array types; they are
`none` elsewhere. -/
structure CType where
  cpp_type : String
  post_cpp_type : String
  cpp_type_comment : String
  bitlen : Nat
  max_size : Nat
  signedness : String
  saturate : Bool
  cpp_type_category : Option Category := none
  array_max_size_bit_len : Option Nat := none
  dynamic_array : Option Bool := none
  max_array_elements : Option Nat := none
deriving DecidableEq

/-- `type_to_c_type` of `libcanard_dsdl_compiler/__init__.py`.  `none`
models the exceptions: the float-width dictionary lookup raises
`KeyError` for bit lengths outside {16, 32, 64}, and
`'%s%d_t' % (c_type, expand_to_next_full(t.bitlen))` raises `TypeError`
when `expand_to_next_full` returns `None` (bit length > 64). -/
def type_to_c_type : DsdlType → Option CType
  | DsdlType.primitive kind bitlen cast_mode =>
    let saturate : Bool :=
      match cast_mode with
      | CastMode.saturated => true
      | CastMode.truncated => false
    let cast_mode_str : String :=
      match cast_mode with
      | CastMode.saturated => "Saturate"
      | CastMode.truncated => "Truncate"
    match kind with
    | PrimKind.float =>
      match (if bitlen = 16 then some "float"
             else if bitlen = 32 then some "float"
             else if bitlen = 64 then some "double"
             else none) with
      | none => none
      | some float_type =>
        some { cpp_type := float_type
               post_cpp_type := ""
               cpp_type_comment := "float" ++ toString bitlen ++ " " ++ cast_mode_str
               bitlen := bitlen
               max_size := get_max_size bitlen false
               signedness := "false"
               saturate := false }
    | PrimKind.boolean =>
      some { cpp_type := "bool"
             post_cpp_type := ""
             cpp_type_comment := "bit len " ++ toString bitlen
             bitlen := bitlen
             max_size := get_max_size bitlen true
             signedness := "false"
             saturate := saturate }
    | PrimKind.signedInt =>
      match expand_to_next_full bitlen with
      | none => none
      | some w =>
        some { cpp_type := "int" ++ toString w ++ "_t"
               post_cpp_type := ""
               cpp_type_comment := "bit len " ++ toString bitlen
               bitlen := bitlen
               max_size := get_max_size bitlen false
               signedness := "true"
               saturate := if saturate then (if w = bitlen then false else saturate) else saturate }
    | PrimKind.unsignedInt =>
      match expand_to_next_full bitlen with
      | none => none
      | some w =>
        some { cpp_type := "uint" ++ toString w ++ "_t"
               post_cpp_type := ""
               cpp_type_comment := "bit len " ++ toString bitlen
               bitlen := bitlen
               max_size := get_max_size bitlen true
               signedness := "false"
               saturate := if saturate then (if w = bitlen then false else saturate) else saturate }
  | DsdlType.array mode max_size value_type =>
    match type_to_c_type value_type with
    | none => none
    | some values =>
      let mode_str : String :=
        match mode with
        | ArrayMode.staticMode => "Static Array"
        | ArrayMode.dynamicMode => "Dynamic Array"
      some { cpp_type := values.cpp_type
             cpp_type_category := some value_type.category
             post_cpp_type := "[" ++ toString max_size ++ "]"
             cpp_type_comment :=
               mode_str ++ " " ++ toString values.bitlen ++ "bit[" ++ toString max_size
                 ++ "] max items"
             bitlen := values.bitlen
             array_max_size_bit_len := some (bit_length max_size)
             max_size := values.max_size
             signedness := values.signedness
             saturate := values.saturate
             dynamic_array := some (decide (mode = ArrayMode.dynamicMode))
             max_array_elements := some max_size }
  | DsdlType.compound full_name max_bitlen =>
    some { cpp_type := full_name.replace "." "_"
           post_cpp_type := ""
           cpp_type_comment := ""
           bitlen := max_bitlen
           max_size := 0
           signedness := "false"
           saturate := false }
  | DsdlType.void bitlen =>
    some { cpp_type := ""
           post_cpp_type := ""
           cpp_type_comment := "void" ++ toString bitlen
           bitlen := bitlen
           max_size := 0
           signedness := "false"
           saturate := false }

/-! ## `solve_types_dependency` (`compile_dsdl.py`): the dependency map

    dependencies = dict()
    for t in types:
        dependencies[t.full_name] = set()
        for f in t.fields:
            if f.type.category == f.type.CATEGORY_COMPOUND:
                dependencies[t.full_name].add(f.type.full_name)
-/

structure ParsedField where
  name : String
  type : DsdlType
deriving DecidableEq

structure ParsedType where
  full_name : Name
  fields : List ParsedField
deriving DecidableEq

/-- `f.type.full_name` guarded by `f.type.category == CATEGORY_COMPOUND`. -/
def compoundName : DsdlType → Option Name
  | DsdlType.compound n _ => some n
  | _ => none

/-- The names added to `dependencies[t.full_name]` (a Python set; only
membership matters downstream, removal removes all copies). -/
def fieldDeps (t : ParsedType) : List Name :=
  t.fields.filterMap (fun f => compoundName f.type)

def solve_types_dependency_graph (types : List ParsedType) : Graph :=
  types.map (fun t => (t.full_name, fieldDeps t))

/-! ## `write_generated_data` (`libcanard_dsdl_compiler/__init__.py`)

    def write_generated_data(filename, data, header_only, append_file=False):
        dirname = os.path.dirname(filename)
        makedirs(dirname)
        if append_file:
            with open(filename, 'a') as f:
                f.write(data)
        else:
            if os.path.exists(filename):
                os.remove(filename)
            with open(filename, 'w') as f:
                f.write(data)

The filesystem is a map from path to content; `makedirs` creates no
files and is a no-op here.  The returned event list records the
`os.remove` and `f.write` calls performed. -/

def fsGet : List (String × String) → String → Option String
  | [], _ => none
  | kv :: rest, p => if kv.1 = p then some kv.2 else fsGet rest p

def fsSet : List (String × String) → String → String → List (String × String)
  | [], p, d => [(p, d)]
  | kv :: rest, p, d => if kv.1 = p then (p, d) :: rest else kv :: fsSet rest p d

def fsRemove : List (String × String) → String → List (String × String)
  | [], _ => []
  | kv :: rest, p => if kv.1 = p then rest else kv :: fsRemove rest p

structure FileSystem where
  files : List (String × String)
deriving DecidableEq

inductive FsEvent where
  | removed (path : String)
  | wrote (path : String) (data : String)
deriving DecidableEq

def write_generated_data (fs : FileSystem) (filename data : String)
    (header_only append_file : Bool) : FileSystem × List FsEvent :=
  if append_file then
    ({ files := fsSet fs.files filename ((fsGet fs.files filename).getD "" ++ data) },
     [FsEvent.wrote filename data])
  else
    if (fsGet fs.files filename).isSome then
      ({ files := fsSet (fsRemove fs.files filename) filename data },
       [FsEvent.removed filename, FsEvent.wrote filename data])
    else
      ({ files := fsSet fs.files filename data },
       [FsEvent.wrote filename data])

/-! ## The whitespace normalisation at the end of `generate_one_type`

    text = '\n'.join(x.rstrip() for x in text.splitlines())
    text = text.replace(5*NL, 2*NL).replace(4*NL, 2*NL).replace(3*NL, 2*NL)
    text = text.replace(OB + NL + NL + SP, OB + NL + SP)

(`NL` a newline, `SP` a space, `OB` an opening curly bracket; the actual
source writes the literals directly).  Text is a list of characters;
`str.replace` scans left to right replacing non-overlapping occurrences
in a single pass.  `str.splitlines` is modelled for the line boundaries
`\n`, `\r\n` and `\r`; the exotic boundaries (`\v`, `\f`, `\x1c`-`\x1e`,
`\x85`, U+2028, U+2029) do not occur in generated text and are treated
as ordinary characters. -/

def pyIsSpace (c : Char) : Bool :=
  c = ' ' || c = '\t' || c = '\n' || c = '\r' || c = '\x0b' || c = '\x0c'

/-- Python `str.rstrip()`. -/
def pyRstrip (line : List Char) : List Char :=
  (line.reverse.dropWhile pyIsSpace).reverse

def pySplitlinesAux : List Char → List Char → List (List Char)
  | [], acc => if acc.isEmpty then [] else [acc.reverse]
  | [c], acc =>
    if c = '\r' ∨ c = '\n' then [acc.reverse] else [(c :: acc).reverse]
  | c1 :: c2 :: rest, acc =>
    if c1 = '\r' then
      if c2 = '\n' then acc.reverse :: pySplitlinesAux rest []
      else acc.reverse :: pySplitlinesAux (c2 :: rest) []
    else if c1 = '\n' then acc.reverse :: pySplitlinesAux (c2 :: rest) []
    else pySplitlinesAux (c2 :: rest) (c1 :: acc)

/-- Python `str.splitlines()` (a final unterminated segment is kept,
a trailing line terminator produces no extra empty line). -/
def pySplitlines (s : List Char) : List (List Char) := pySplitlinesAux s []

/-- Python `'\n'.join(lines)`. -/
def joinLines : List (List Char) → List Char
  | [] => []
  | [l] => l
  | l :: l2 :: rest => l ++ '\n' :: joinLines (l2 :: rest)

/-- Python `s.replace(pat, rep)` with explicit fuel; each step consumes
at least one character (the patterns used are never empty), so
`s.length` fuel always suffices. -/
def replaceAllAux (pat rep : List Char) : Nat → List Char → List Char
  | _, [] => []
  | 0, s => s
  | fuel + 1, c :: rest =>
    if pat.isPrefixOf (c :: rest) then
      rep ++ replaceAllAux pat rep fuel ((c :: rest).drop pat.length)
    else
      c :: replaceAllAux pat rep fuel rest

def replaceAll (pat rep s : List Char) : List Char :=
  replaceAllAux pat rep s.length s

def newlines (n : Nat) : List Char := List.replicate n '\n'

/-- The final normalisation of `generate_one_type`. -/
def normalize_generated_text (text : List Char) : List Char :=
  let text1 := joinLines ((pySplitlines text).map pyRstrip)
  let text2 := replaceAll (newlines 5) (newlines 2) text1
  let text3 := replaceAll (newlines 4) (newlines 2) text2
  let text4 := replaceAll (newlines 3) (newlines 2) text3
  replaceAll ['{', '\n', '\n', ' '] ['{', '\n', ' '] text4

/-- The run-length transformation performed by one single-pass
replacement of `k` newlines by two: `m ↦ 2·(m / k) + m % k`. -/
def collapseRun (k m : Nat) : Nat := 2 * (m / k) + m % k

/-! ## `inject_cpp_types` (inside `generate_one_type`)

    def inject_cpp_types(attributes):
        length = len(attributes)
        count = 0
        has_array = False
        for a in attributes:
            count = count + 1
            a.last_item = False
            if (count == length):
                a.last_item = True
            data = type_to_c_type(a.type)
            for key, value in data.items():
                setattr(a, key, value)
            if a.type.category == t.CATEGORY_ARRAY:
                a.array_size = a.type.max_size
                has_array = True
            a.type_category = a.type.category
            a.void = a.type.category == a.type.CATEGORY_VOID
            if a.void:
                assert not a.name
                a.name = ''
        return has_array

A freshly parsed attribute lacks the injected attributes (`none`).  The
`setattr` loop attaches the whole `type_to_c_type` dictionary, held here
as one `cinfo` record.  The failing `assert` (a void field with a name)
is modelled as `none`. -/

structure ParsedAttr where
  name : String
  type : DsdlType
  last_item : Option Bool := none
  cinfo : Option CType := none
  array_size : Option Nat := none
  type_category : Option Category := none
  void : Option Bool := none
deriving DecidableEq

def inject_one (length count : Nat) (a : ParsedAttr) : Option ParsedAttr :=
  let a1 := { a with last_item := some (decide (count = length)) }
  match type_to_c_type a1.type with
  | none => none
  | some data =>
    let a2 := { a1 with cinfo := some data }
    let a3 := if a2.type.category = Category.array
      then { a2 with array_size := some a2.type.maxSizeAttr } else a2
    let a4 := { a3 with
      type_category := some a3.type.category
      void := some (decide (a3.type.category = Category.void)) }
    if a4.type.category = Category.void then
      if a4.name = "" then some { a4 with name := "" } else none
    else some a4

def inject_cpp_types_go (length : Nat) : Nat → List ParsedAttr → Option (List ParsedAttr × Bool)
  | _, [] => some ([], false)
  | count, a :: rest =>
    match inject_one length (count + 1) a with
    | none => none
    | some a2 =>
      match inject_cpp_types_go length (count + 1) rest with
      | none => none
      | some r =>
        some (a2 :: r.1, (decide (a.type.category = Category.array)) || r.2)

/-- The mutated attribute list together with the returned `has_array`
flag. -/
def inject_cpp_types (attributes : List ParsedAttr) : Option (List ParsedAttr × Bool) :=
  inject_cpp_types_go attributes.length 0 attributes

/-! ## Concrete example values used by counterexamples and witnesses -/

def exampleArrayField : ParsedField :=
  { name := "f0", type := DsdlType.array ArrayMode.staticMode 4 (DsdlType.compound "pkg.C" 8) }

def exampleT : ParsedType := { full_name := "pkg.T", fields := [exampleArrayField] }

def exampleC : ParsedType := { full_name := "pkg.C", fields := [] }

def exampleDirectField : ParsedField :=
  { name := "g0", type := DsdlType.compound "pkg.C" 8 }

def exampleTDirect : ParsedType := { full_name := "pkg.D", fields := [exampleDirectField] }

def exampleU12CType : CType :=
  { cpp_type := "uint16_t"
    post_cpp_type := ""
    cpp_type_comment := "bit len 12"
    bitlen := 12
    max_size := 4095
    signedness := "false"
    saturate := true }

def exampleFreshAttr : ParsedAttr :=
  { name := "x", type := DsdlType.primitive PrimKind.unsignedInt 8 CastMode.saturated }

def exampleU8CType : CType :=
  { cpp_type := "uint8_t"
    post_cpp_type := ""
    cpp_type_comment := "bit len 8"
    bitlen := 8
    max_size := 255
    signedness := "false"
    saturate := false }

def exampleInjectedAttr : ParsedAttr :=
  { name := "x"
    type := DsdlType.primitive PrimKind.unsignedInt 8 CastMode.saturated
    last_item := some true
    cinfo := some exampleU8CType
    array_size := none
    type_category := some Category.primitive
    void := some false }

/-! ## Helper lemmas about the topological sort -/

theorem depsOf_removeDep (g : Graph) (c k : Name) :
    depsOf (removeDep g c) k =
      (depsOf g k).map (fun l => l.filter (fun d => decide (d ≠ c))) := by
  induction g with
  | nil => rfl
  | cons kv rest ih =>
    by_cases h : kv.1 = k <;> simp [depsOf, removeDep, h] <;>
      simpa [removeDep] using ih

theorem keys_removeDep (g : Graph) (c : Name) :
    (removeDep g c).map Prod.fst = g.map Prod.fst := by
  simp [removeDep, List.map_map, Function.comp]

theorem depsOf_eq_of_mem {g : Graph} (hnd : (g.map Prod.fst).Nodup)
    {k : Name} {v : List Name} (hmem : (k, v) ∈ g) : depsOf g k = some v := by
  induction g with
  | nil => cases hmem
  | cons kv rest ih =>
    rcases List.mem_cons.1 hmem with h | h
    · simp [depsOf, ← h]
    · have hk : k ∈ rest.map Prod.fst := List.mem_map.2 ⟨(k, v), h, rfl⟩
      have hne : kv.1 ≠ k := by
        intro he
        exact (List.nodup_cons.1 hnd).1 (he ▸ hk)
      simp only [depsOf, if_neg hne]
      exact ih (List.nodup_cons.1 hnd).2 h

theorem mem_of_depsOf_eq {g : Graph} {k : Name} {v : List Name}
    (h : depsOf g k = some v) : (k, v) ∈ g := by
  induction g with
  | nil => simp [depsOf] at h
  | cons kv rest ih =>
    by_cases he : kv.1 = k
    · simp only [depsOf, if_pos he] at h
      have : kv = (k, v) := by
        cases kv
        simp_all
      exact this ▸ List.mem_cons_self _ _
    · simp only [depsOf, if_neg he] at h
      exact List.mem_cons_of_mem _ (ih h)

theorem mem_newlyFree {g : Graph} {c m : Name} (h : m ∈ newlyFree g c) :
    ∃ l, (m, l) ∈ g ∧ c ∈ l ∧ l.filter (fun d => decide (d ≠ c)) = [] := by
  unfold newlyFree at h
  rcases List.mem_map.1 h with ⟨kv, hkv, hfst⟩
  rcases List.mem_filter.1 hkv with ⟨hmem, hcond⟩
  rw [Bool.and_eq_true, decide_eq_true_eq, List.isEmpty_iff] at hcond
  exact ⟨kv.2, by rw [← hfst]; exact hmem, hcond.1, hcond.2⟩

theorem newlyFree_sublist_keys (g : Graph) (c : Name) :
    (newlyFree g c).Sublist (g.map Prod.fst) :=
  List.Sublist.map Prod.fst (List.filter_sublist g)

theorem topoLoop_zero (pick : List Name → Name) (S : List Name) (g : Graph) :
    topoLoop pick 0 S g = ([], g) := rfl

theorem topoLoop_nil (pick : List Name → Name) (fuel : Nat) (g : Graph) :
    topoLoop pick (fuel + 1) [] g = ([], g) := rfl

theorem topoLoop_cons (pick : List Name → Name) (fuel : Nat) (s0 : Name)
    (St : List Name) (g : Graph) :
    topoLoop pick (fuel + 1) (s0 :: St) g =
      (pick (s0 :: St) ::
         (topoLoop pick fuel
            ((s0 :: St).erase (pick (s0 :: St)) ++ newlyFree g (pick (s0 :: St)))
            (removeDep g (pick (s0 :: St)))).1,
       (topoLoop pick fuel
          ((s0 :: St).erase (pick (s0 :: St)) ++ newlyFree g (pick (s0 :: St)))
          (removeDep g (pick (s0 :: St)))).2) := rfl

theorem not_mem_cons_decide (d c : Name) (names : List Name) :
    decide (d ∉ c :: names) = (decide (d ∉ names) && decide (d ≠ c)) := by
  rw [← Bool.decide_and]
  apply decide_eq_decide.2
  constructor
  · intro h
    exact ⟨fun hm => h (List.mem_cons_of_mem _ hm), fun he => h (he ▸ List.mem_cons_self _ _)⟩
  · intro h hm
    rcases List.mem_cons.1 hm with he | hm2
    · exact h.2 he
    · exact h.1 hm2

theorem removeAll_removeDep (g : Graph) (c : Name) (names : List Name) :
    removeAll (removeDep g c) names = removeAll g (c :: names) := by
  unfold removeAll removeDep
  rw [List.map_map]
  apply List.map_congr_left
  intro kv _
  simp only [Function.comp]
  rw [List.filter_filter]
  refine congrArg (fun l => (kv.1, l)) ?_
  apply List.filter_congr
  intro d _
  rw [not_mem_cons_decide]

theorem removeAll_nil (g : Graph) : removeAll g [] = g := by
  unfold removeAll
  have : ∀ kv : Name × List Name,
      (kv.1, kv.2.filter (fun d => decide (d ∉ ([] : List Name)))) = kv := by
    intro kv
    simp
  simp only [this, List.map_id']

/-- The state of the mutated dictionary as the loop ends: every yielded
name has been removed from every dependency set, and nothing else
changed. -/
theorem topoLoop_final (pick : List Name → Name) :
    ∀ (fuel : Nat) (S : List Name) (g : Graph),
      (topoLoop pick fuel S g).2 = removeAll g (topoLoop pick fuel S g).1 := by
  intro fuel
  induction fuel with
  | zero =>
    intro S g
    rw [topoLoop_zero]
    exact (removeAll_nil g).symm
  | succ fuel ih =>
    intro S g
    cases S with
    | nil =>
      rw [topoLoop_nil]
      exact (removeAll_nil g).symm
    | cons s0 St =>
      rw [topoLoop_cons]
      dsimp only
      rw [ih, removeAll_removeDep]

/-- Loop invariant: every name in the output is preceded by its full
current dependency list.  `S` must contain only names whose dependency
set is empty (true of the initial `S` and preserved by the loop). -/
theorem topoLoop_deps_subset_prefix (pick : List Name → Name)
    (hpick : ∀ S : List Name, S ≠ [] → pick S ∈ S) :
    ∀ (fuel : Nat) (S : List Name) (g : Graph),
      (g.map Prod.fst).Nodup →
      (∀ s ∈ S, depsOf g s = some []) →
      ∀ pre y post, (topoLoop pick fuel S g).1 = pre ++ y :: post →
        ∃ l, depsOf g y = some l ∧ ∀ d ∈ l, d ∈ pre := by
  intro fuel
  induction fuel with
  | zero =>
    intro S g _ _ pre y post h
    rw [topoLoop_zero] at h
    exact absurd h.symm (List.append_ne_nil_of_right_ne_nil _ (List.cons_ne_nil _ _))
  | succ fuel ih =>
    intro S g hnd hready pre y post h
    cases S with
    | nil =>
      rw [topoLoop_nil] at h
      exact absurd h.symm (List.append_ne_nil_of_right_ne_nil _ (List.cons_ne_nil _ _))
    | cons s0 St =>
      rw [topoLoop_cons] at h
      dsimp only at h
      have hcS : pick (s0 :: St) ∈ s0 :: St := hpick _ (List.cons_ne_nil _ _)
      cases pre with
      | nil =>
        simp only [List.nil_append, List.cons.injEq] at h
        exact ⟨[], h.1 ▸ hready _ hcS, by simp⟩
      | cons p0 pre2 =>
        simp only [List.cons_append, List.cons.injEq] at h
        obtain ⟨hp0, hout2⟩ := h
        have hnd2 : ((removeDep g (pick (s0 :: St))).map Prod.fst).Nodup := by
          rw [keys_removeDep]; exact hnd
        have hready2 : ∀ s ∈ (s0 :: St).erase (pick (s0 :: St)) ++ newlyFree g (pick (s0 :: St)),
            depsOf (removeDep g (pick (s0 :: St))) s = some [] := by
          intro s hs
          rcases List.mem_append.1 hs with hs | hs
          · have hsS : s ∈ s0 :: St := List.mem_of_mem_erase hs
            rw [depsOf_removeDep, hready s hsS]
            rfl
          · rcases mem_newlyFree hs with ⟨l, hmem, _, hfil⟩
            rw [depsOf_removeDep, depsOf_eq_of_mem hnd hmem, Option.map_some', hfil]
        obtain ⟨l2, hl2, hsub2⟩ := ih _ _ hnd2 hready2 pre2 y post hout2
        rw [depsOf_removeDep] at hl2
        rcases Option.map_eq_some'.1 hl2 with ⟨l, hl, hfl⟩
        refine ⟨l, hl, ?_⟩
        intro d hd
        by_cases hdc : d = pick (s0 :: St)
        · rw [hdc, hp0]
          exact List.mem_cons_self _ _
        · have hdf : d ∈ l.filter (fun d => decide (d ≠ pick (s0 :: St))) :=
            List.mem_filter.2 ⟨hd, by simp [hdc]⟩
          rw [hfl] at hdf
          exact List.mem_cons_of_mem _ (hsub2 d hdf)

/-- Loop invariant: the output has no duplicates, and every output name
either sat in `S` or still had a nonempty dependency set at loop entry. -/
theorem topoLoop_out_nodup (pick : List Name → Name)
    (hpick : ∀ S : List Name, S ≠ [] → pick S ∈ S) :
    ∀ (fuel : Nat) (S : List Name) (g : Graph),
      (g.map Prod.fst).Nodup → S.Nodup →
      (∀ s ∈ S, depsOf g s = some []) →
      (topoLoop pick fuel S g).1.Nodup ∧
        ∀ y ∈ (topoLoop pick fuel S g).1,
          y ∈ S ∨ ∃ l, depsOf g y = some l ∧ l ≠ [] := by
  intro fuel
  induction fuel with
  | zero =>
    intro S g _ _ _
    rw [topoLoop_zero]
    exact ⟨List.nodup_nil, by simp⟩
  | succ fuel ih =>
    intro S g hnd hS hready
    cases S with
    | nil =>
      rw [topoLoop_nil]
      exact ⟨List.nodup_nil, by simp⟩
    | cons s0 St =>
      rw [topoLoop_cons]
      dsimp only
      have hcS : pick (s0 :: St) ∈ s0 :: St := hpick _ (List.cons_ne_nil _ _)
      have hnd2 : ((removeDep g (pick (s0 :: St))).map Prod.fst).Nodup := by
        rw [keys_removeDep]; exact hnd
      have hready2 : ∀ s ∈ (s0 :: St).erase (pick (s0 :: St)) ++ newlyFree g (pick (s0 :: St)),
          depsOf (removeDep g (pick (s0 :: St))) s = some [] := by
        intro s hs
        rcases List.mem_append.1 hs with hs | hs
        · have hsS : s ∈ s0 :: St := List.mem_of_mem_erase hs
          rw [depsOf_removeDep, hready s hsS]
          rfl
        · rcases mem_newlyFree hs with ⟨l, hmem, _, hfil⟩
          rw [depsOf_removeDep, depsOf_eq_of_mem hnd hmem, Option.map_some', hfil]
      have hdisj : ((s0 :: St).erase (pick (s0 :: St))).Disjoint
          (newlyFree g (pick (s0 :: St))) := by
        intro m hm1 hm2
        have hmS : m ∈ s0 :: St := List.mem_of_mem_erase hm1
        rcases mem_newlyFree hm2 with ⟨l, hmem, hc, _⟩
        have h1 : depsOf g m = some [] := hready m hmS
        have h2 : depsOf g m = some l := depsOf_eq_of_mem hnd hmem
        rw [h1] at h2
        cases Option.some.inj h2
        cases hc
      have hS2 : ((s0 :: St).erase (pick (s0 :: St)) ++ newlyFree g (pick (s0 :: St))).Nodup :=
        List.Nodup.append (hS.erase _) ((newlyFree_sublist_keys g _).nodup hnd) hdisj
      obtain ⟨hnodup2, hmem2⟩ := ih _ _ hnd2 hS2 hready2
      constructor
      · refine List.nodup_cons.2 ⟨?_, hnodup2⟩
        intro hmem
        rcases hmem2 _ hmem with hin | ⟨l, hdeps, hne⟩
        · rcases List.mem_append.1 hin with hin | hin
          · exact ((hS.mem_erase_iff).1 hin).1 rfl
          · rcases mem_newlyFree hin with ⟨l, hmem', hc, _⟩
            have h1 : depsOf g (pick (s0 :: St)) = some [] := hready _ hcS
            have h2 := depsOf_eq_of_mem hnd hmem'
            rw [h1] at h2
            cases Option.some.inj h2
            cases hc
        · rw [depsOf_removeDep, hready _ hcS, Option.map_some'] at hdeps
          exact hne (Option.some.inj hdeps).symm
      · intro y hy
        rcases List.mem_cons.1 hy with rfl | hy2
        · exact Or.inl hcS
        · rcases hmem2 y hy2 with hin | ⟨l2, hdeps2, hne2⟩
          · rcases List.mem_append.1 hin with hin | hin
            · exact Or.inl (List.mem_of_mem_erase hin)
            · rcases mem_newlyFree hin with ⟨l, hmem', hc, _⟩
              exact Or.inr ⟨l, depsOf_eq_of_mem hnd hmem', List.ne_nil_of_mem hc⟩
          · rw [depsOf_removeDep] at hdeps2
            rcases Option.map_eq_some'.1 hdeps2 with ⟨l, hl, hfl⟩
            refine Or.inr ⟨l, hl, ?_⟩
            intro h0
            rw [h0] at hfl
            exact hne2 hfl.symm

/-! Position lemmas for the output order. -/

theorem posIn_append_left {out1 : List Name} (out2 : List Name) {x : Name}
    (hx : x ∈ out1) : posIn (out1 ++ out2) x = posIn out1 x := by
  induction out1 with
  | nil => cases hx
  | cons c rest ih =>
    by_cases h : c = x
    · simp [posIn, h]
    · rcases List.mem_cons.1 hx with he | hm
      · exact absurd he.symm h
      · simp [posIn, h, ih hm]

theorem posIn_lt_length {out : List Name} {x : Name} (hx : x ∈ out) :
    posIn out x < out.length := by
  induction out with
  | nil => cases hx
  | cons c rest ih =>
    by_cases h : c = x
    · simp [posIn, h]
    · rcases List.mem_cons.1 hx with he | hm
      · exact absurd he.symm h
      · simp only [posIn, if_neg h, List.length_cons]
        exact Nat.succ_lt_succ (ih hm)

theorem posIn_append_self {pre : List Name} {y : Name} (post : List Name)
    (hy : y ∉ pre) : posIn (pre ++ y :: post) y = pre.length := by
  induction pre with
  | nil => simp [posIn]
  | cons c rest ih =>
    have hcy : c ≠ y := fun he => hy (he ▸ List.mem_cons_self _ _)
    simp only [List.cons_append, posIn, if_neg hcy, List.length_cons]
    exact congrArg Nat.succ (ih (fun hm => hy (List.mem_cons_of_mem _ hm)))

/-- Assembled ordering result: in any run of `topological_sort`, a
yielded name is preceded by every name it transitively depends on. -/
theorem topo_trans_before (pick : List Name → Name)
    (hpick : ∀ S : List Name, S ≠ [] → pick S ∈ S)
    (g : Graph) (hnd : (g.map Prod.fst).Nodup) :
    ∀ x y : Name, TransDep g y x → y ∈ (topological_sort pick g).1 →
      x ∈ (topological_sort pick g).1 ∧
        posIn (topological_sort pick g).1 x < posIn (topological_sort pick g).1 y := by
  have hreadyInit : ∀ s ∈ initialS g, depsOf g s = some [] := by
    intro s hs
    unfold initialS at hs
    rcases List.mem_map.1 hs with ⟨kv, hkv, hfst⟩
    rcases List.mem_filter.1 hkv with ⟨hmem, hcond⟩
    rw [List.isEmpty_iff] at hcond
    rw [← hfst]
    rw [depsOf_eq_of_mem hnd hmem, hcond]
  have hSnodup : (initialS g).Nodup := by
    unfold initialS
    exact ((List.filter_sublist g).map Prod.fst).nodup hnd
  have hout := topoLoop_out_nodup pick hpick g.length (initialS g) g hnd hSnodup hreadyInit
  have hdirect : ∀ x y : Name, DirectDep g y x → y ∈ (topological_sort pick g).1 →
      x ∈ (topological_sort pick g).1 ∧
        posIn (topological_sort pick g).1 x < posIn (topological_sort pick g).1 y := by
    intro x y hstep hy
    rcases List.append_of_mem hy with ⟨pre, post, hdecomp⟩
    obtain ⟨l, hl, hsub⟩ :=
      topoLoop_deps_subset_prefix pick hpick g.length (initialS g) g hnd hreadyInit
        pre y post hdecomp
    rcases hstep with ⟨l', hl', hx⟩
    rw [hl] at hl'
    cases Option.some.inj hl'
    have hxpre : x ∈ pre := hsub x hx
    have hnodupOut : (topological_sort pick g).1.Nodup := hout.1
    rw [hdecomp] at hnodupOut ⊢
    have hynotpre : y ∉ pre := by
      intro hyp
      exact (List.disjoint_of_nodup_append hnodupOut) hyp (List.mem_cons_self _ _)
    constructor
    · exact List.mem_append.2 (Or.inl hxpre)
    · rw [posIn_append_left _ hxpre, posIn_append_self post hynotpre]
      exact posIn_lt_length hxpre
  intro x y htrans
  induction htrans with
  | single hstep => exact fun hy => hdirect _ _ hstep hy
  | tail _ hstep ih =>
    intro hy
    obtain ⟨hb, hlt⟩ := ih hy
    obtain ⟨hx, hlt2⟩ := hdirect _ _ hstep hb
    exact ⟨hx, Nat.lt_trans hlt2 hlt⟩

theorem pickFirst_mem : ∀ S : List Name, S ≠ [] → pickFirst S ∈ S := by
  intro S h
  cases S with
  | nil => exact absurd rfl h
  | cons a t => exact List.mem_cons_self a t

theorem getLastD_mem : ∀ (t : List Name) (a : Name), t.getLastD a ∈ a :: t := by
  intro t
  induction t with
  | nil => intro a; exact List.mem_cons_self a []
  | cons b t ih =>
    intro a
    have := ih b
    simpa [List.getLastD] using Or.inr this

theorem pickLast_mem : ∀ S : List Name, S ≠ [] → pickLast S ∈ S := by
  intro S h
  cases S with
  | nil => exact absurd rfl h
  | cons a t => simpa [pickLast, List.getLastD] using getLastD_mem t a

/-- C1: for every dependency graph (in particular every acyclic one)
and every legal behaviour of `set.pop()`, every name yielded by
`topological_sort` appears in the output strictly after every name it
directly or transitively depends on: the dependency is itself yielded,
at a strictly earlier position. -/
theorem topological_sort_respects_dependencies
    (pick : List Name → Name) (hpick : ∀ S : List Name, S ≠ [] → pick S ∈ S)
    (g : Graph) (hnd : (g.map Prod.fst).Nodup)
    (x y : Name) (hdep : TransDep g y x)
    (hy : y ∈ (topological_sort pick g).1) :
    x ∈ (topological_sort pick g).1 ∧
      posIn (topological_sort pick g).1 x < posIn (topological_sort pick g).1 y :=
  topo_trans_before pick hpick g hnd x y hdep hy

/-- Witness for `topological_sort_respects_dependencies`: in the graph
where `b` depends on `a`, the run driven by `pickFirst` yields `a`
strictly before `b`. -/
theorem topological_sort_respects_dependencies_witness :
    "a" ∈ (topological_sort pickFirst [("b", ["a"]), ("a", [])]).1 ∧
      posIn (topological_sort pickFirst [("b", ["a"]), ("a", [])]).1 "a" <
        posIn (topological_sort pickFirst [("b", ["a"]), ("a", [])]).1 "b" :=
  topological_sort_respects_dependencies pickFirst pickFirst_mem
    [("b", ["a"]), ("a", [])] (by decide) "a" "b"
    (Relation.TransGen.single ⟨["a"], by decide, by decide⟩) (by decide)

/-- C2: on a dictionary whose graph contains a dependency cycle, the
final check of `topological_sort` raises
`ValueError("Cyclic dependency graph.")`, and no member of any cycle is
ever yielded: the caller obtains no ordering of the cycle members. -/
theorem topological_sort_cycle_rejected
    (pick : List Name → Name) (hpick : ∀ S : List Name, S ≠ [] → pick S ∈ S)
    (g : Graph) (hnd : (g.map Prod.fst).Nodup)
    (hcyc : ∃ x, TransDep g x x) :
    cyclicError (topological_sort pick g).2 = true ∧
      ∀ x, TransDep g x x → x ∉ (topological_sort pick g).1 := by
  have hnotin : ∀ x, TransDep g x x → x ∉ (topological_sort pick g).1 := by
    intro x hx hxin
    obtain ⟨_, hlt⟩ := topo_trans_before pick hpick g hnd x x hx hxin
    exact Nat.lt_irrefl _ hlt
  refine ⟨?_, hnotin⟩
  obtain ⟨x, hx⟩ := hcyc
  obtain ⟨c, hstep, htail⟩ := Relation.TransGen.head'_iff.1 hx
  have hcc : TransDep g c c := Relation.TransGen.tail' htail hstep
  rcases hstep with ⟨l, hl, hcl⟩
  have hcnot : c ∉ (topological_sort pick g).1 := hnotin c hcc
  have hfin : (topological_sort pick g).2 = removeAll g (topological_sort pick g).1 :=
    topoLoop_final pick g.length (initialS g) g
  rw [hfin]
  unfold cyclicError removeAll
  rw [List.any_eq_true]
  refine ⟨(x, l.filter (fun d => decide (d ∉ (topological_sort pick g).1))),
    List.mem_map.2 ⟨(x, l), mem_of_depsOf_eq hl, rfl⟩, ?_⟩
  have hcf : c ∈ l.filter (fun d => decide (d ∉ (topological_sort pick g).1)) :=
    List.mem_filter.2 ⟨hcl, by simp [hcnot]⟩
  rw [Bool.not_eq_true']
  cases hfe : (l.filter (fun d => decide (d ∉ (topological_sort pick g).1))).isEmpty
  · rfl
  · rw [List.isEmpty_iff] at hfe
    rw [hfe] at hcf
    cases hcf

/-- Witness for `topological_sort_cycle_rejected`: the self-loop `a → a`
raises the error and `a` is never yielded. -/
theorem topological_sort_cycle_rejected_witness :
    cyclicError (topological_sort pickFirst [("a", ["a"])]).2 = true ∧
      "a" ∉ (topological_sort pickFirst [("a", ["a"])]).1 :=
  ⟨(topological_sort_cycle_rejected pickFirst pickFirst_mem [("a", ["a"])] (by decide)
      ⟨"a", Relation.TransGen.single ⟨["a"], by decide, by decide⟩⟩).1,
   (topological_sort_cycle_rejected pickFirst pickFirst_mem [("a", ["a"])] (by decide)
      ⟨"a", Relation.TransGen.single ⟨["a"], by decide, by decide⟩⟩).2 "a"
     (Relation.TransGen.single ⟨["a"], by decide, by decide⟩)⟩

/-- C3 fails on the code: `pickFirst` and `pickLast` are both legal
behaviours of the arbitrary `S.pop()` (see `pickFirst_mem` and
`pickLast_mem`), yet on a graph with two simultaneously eligible names
they make `topological_sort` produce different output orders.  There is
no fixed tie-break rule in the implementation. -/
theorem topological_sort_pop_order_dependent :
    (topological_sort pickFirst [("a", []), ("b", [])]).1 = ["a", "b"] ∧
      (topological_sort pickLast [("a", []), ("b", [])]).1 = ["b", "a"] ∧
      (topological_sort pickFirst [("a", []), ("b", [])]).1 ≠
        (topological_sort pickLast [("a", []), ("b", [])]).1 := by
  decide

/-- C10: `topological_sort` mutates the dictionary it is given: the
final dictionary is the input with every yielded name deleted from every
dependency set; after a complete run that does not raise, every
dependency set in the caller's dictionary is empty; and feeding the
mutated dictionary to a second call does not reproduce the first call's
output. -/
theorem topological_sort_mutates_input :
    (∀ (pick : List Name → Name) (g : Graph),
        (topological_sort pick g).2 = removeAll g (topological_sort pick g).1) ∧
      (∀ (pick : List Name → Name) (g : Graph),
        cyclicError (topological_sort pick g).2 = false →
          ∀ kv ∈ (topological_sort pick g).2, kv.2 = []) ∧
      (topological_sort pickFirst [("b", ["a"]), ("a", [])]).1 ≠
        (topological_sort pickFirst
          (topological_sort pickFirst [("b", ["a"]), ("a", [])]).2).1 := by
  refine ⟨fun pick g => topoLoop_final pick g.length (initialS g) g, ?_, by decide⟩
  intro pick g herr kv hkv
  by_contra hne
  have htrue : cyclicError (topological_sort pick g).2 = true := by
    unfold cyclicError
    rw [List.any_eq_true]
    exact ⟨kv, hkv, by simp [List.isEmpty_iff, hne]⟩
  exact absurd (htrue.symm.trans herr) (by decide)

/-- Witness for `topological_sort_mutates_input`: the one-name graph,
on which the run succeeds and leaves the (already empty) set empty. -/
theorem topological_sort_mutates_input_witness :
    (topological_sort pickFirst [("a", [])]).2 =
        removeAll [("a", [])] (topological_sort pickFirst [("a", [])]).1 ∧
      ∀ kv ∈ (topological_sort pickFirst [("a", [])]).2, kv.2 = [] :=
  ⟨topological_sort_mutates_input.1 pickFirst [("a", [])],
   topological_sort_mutates_input.2.1 pickFirst [("a", [])] (by decide)⟩

/-- C5: for every integer bit length `1 ≤ b ≤ 64`, `expand_to_next_full`
returns the smallest member of {8, 16, 32, 64} that is ≥ `b`, and that
width is the unique such minimum. -/
theorem expand_to_next_full_least (b : Nat) (hb1 : 1 ≤ b) (hb64 : b ≤ 64) :
    ∃ w, expand_to_next_full b = some w ∧
      (w = 8 ∨ w = 16 ∨ w = 32 ∨ w = 64) ∧ b ≤ w ∧
      (∀ u, (u = 8 ∨ u = 16 ∨ u = 32 ∨ u = 64) → b ≤ u → w ≤ u) ∧
      (∀ u, (u = 8 ∨ u = 16 ∨ u = 32 ∨ u = 64) → b ≤ u →
        (∀ v, (v = 8 ∨ v = 16 ∨ v = 32 ∨ v = 64) → b ≤ v → u ≤ v) → u = w) := by
  unfold expand_to_next_full
  by_cases h8 : b ≤ 8
  · simp only [h8, if_true]
    exact ⟨8, rfl, by omega, by omega, fun u hu hbu => by omega,
      fun u hu hbu hmin => le_antisymm (hmin 8 (by omega) (by omega)) (by omega)⟩
  · by_cases h16 : b ≤ 16
    · simp only [h8, h16, if_false, if_true]
      exact ⟨16, rfl, by omega, by omega, fun u hu hbu => by omega,
        fun u hu hbu hmin => le_antisymm (hmin 16 (by omega) (by omega)) (by omega)⟩
    · by_cases h32 : b ≤ 32
      · simp only [h8, h16, h32, if_false, if_true]
        exact ⟨32, rfl, by omega, by omega, fun u hu hbu => by omega,
          fun u hu hbu hmin => le_antisymm (hmin 32 (by omega) (by omega)) (by omega)⟩
      · simp only [h8, h16, h32, hb64, if_false, if_true]
        exact ⟨64, rfl, by omega, by omega, fun u hu hbu => by omega,
          fun u hu hbu hmin => le_antisymm (hmin 64 (by omega) (by omega)) (by omega)⟩

/-- Witness for `expand_to_next_full_least` at bit length 12. -/
theorem expand_to_next_full_least_witness :
    (1 ≤ 12 ∧ 12 ≤ 64) ∧
      ∃ w, expand_to_next_full 12 = some w ∧
        (w = 8 ∨ w = 16 ∨ w = 32 ∨ w = 64) ∧ 12 ≤ w ∧
        (∀ u, (u = 8 ∨ u = 16 ∨ u = 32 ∨ u = 64) → 12 ≤ u → w ≤ u) ∧
        (∀ u, (u = 8 ∨ u = 16 ∨ u = 32 ∨ u = 64) → 12 ≤ u →
          (∀ v, (v = 8 ∨ v = 16 ∨ v = 32 ∨ v = 64) → 12 ≤ v → u ≤ v) → u = w) :=
  ⟨⟨by omega, by omega⟩, expand_to_next_full_least 12 (by omega) (by omega)⟩

/-! ## Claims about the dependency-map construction (C4) -/

theorem solve_types_dependency_keys (types : List ParsedType) :
    (solve_types_dependency_graph types).map Prod.fst = types.map (fun t => t.full_name) := by
  simp [solve_types_dependency_graph, List.map_map, Function.comp]

/-- C4 counterexample: a compound type that is only reachable as the
element type of an array field is NOT added to the dependency set;
`solve_types_dependency` does not unwrap array element types.  Here
`pkg.T` has a single field of array type with element `pkg.C`, and its
dependency set is empty. -/
theorem solve_types_dependency_array_not_unwrapped :
    exampleArrayField.type =
        DsdlType.array ArrayMode.staticMode 4 (DsdlType.compound "pkg.C" 8) ∧
      depsOf (solve_types_dependency_graph [exampleC, exampleT]) "pkg.T" = some [] ∧
      "pkg.C" ∉ fieldDeps exampleT := by
  decide

/-- C4 amended: the dependency set built for each type contains exactly
the full names of the compound types that are directly the declared type
of one of its fields; fields of array category contribute nothing, even
when their element type is compound. -/
theorem solve_types_dependency_direct_compounds
    (types : List ParsedType) (t : ParsedType) (ht : t ∈ types)
    (hnd : (types.map (fun u => u.full_name)).Nodup) (c : Name) :
    (∃ l, depsOf (solve_types_dependency_graph types) t.full_name = some l ∧ c ∈ l) ↔
      ∃ f ∈ t.fields, compoundName f.type = some c := by
  have hk : ((solve_types_dependency_graph types).map Prod.fst).Nodup := by
    rw [solve_types_dependency_keys]; exact hnd
  have hmem : (t.full_name, fieldDeps t) ∈ solve_types_dependency_graph types :=
    List.mem_map.2 ⟨t, ht, rfl⟩
  have hlook := depsOf_eq_of_mem hk hmem
  constructor
  · rintro ⟨l, hl, hcl⟩
    rw [hlook] at hl
    obtain rfl := Option.some.inj hl
    rcases List.mem_filterMap.1 hcl with ⟨f, hf, hcf⟩
    exact ⟨f, hf, hcf⟩
  · rintro ⟨f, hf, hcf⟩
    exact ⟨fieldDeps t, hlook, List.mem_filterMap.2 ⟨f, hf, hcf⟩⟩

/-- Witness for `solve_types_dependency_direct_compounds`: a direct
compound field does land in the dependency set. -/
theorem solve_types_dependency_direct_compounds_witness :
    (∃ l, depsOf (solve_types_dependency_graph [exampleTDirect, exampleC])
          exampleTDirect.full_name = some l ∧ "pkg.C" ∈ l) ↔
      ∃ f ∈ exampleTDirect.fields, compoundName f.type = some "pkg.C" :=
  solve_types_dependency_direct_compounds [exampleTDirect, exampleC] exampleTDirect
    (List.mem_cons_self _ _) (by decide) "pkg.C"

/-! ## Claims about `type_to_c_type` (C6) -/

/-- C6 counterexample: a boolean with cast mode saturated (the DSDL
default) comes back with `saturate = True`; the boolean branch passes
the raw flag through. -/
theorem type_to_c_type_boolean_saturates :
    (type_to_c_type (DsdlType.primitive PrimKind.boolean 1 CastMode.saturated)).map
        (fun ct => ct.saturate) = some true := by
  decide

/-- C6 amended: for every primitive mapped without error, the resulting
saturate flag is true exactly when the type is a signed or unsigned
integer with cast mode saturated whose expanded width differs from the
declared bit length, OR a boolean with cast mode saturated.  Floats
never saturate, truncated cast mode never saturates, and the exact-fit
exception applies to the integer kinds only. -/
theorem type_to_c_type_saturate_characterization
    (kind : PrimKind) (bitlen : Nat) (cast_mode : CastMode) (ct : CType)
    (h : type_to_c_type (DsdlType.primitive kind bitlen cast_mode) = some ct) :
    ct.saturate = true ↔
      (((kind = PrimKind.signedInt ∨ kind = PrimKind.unsignedInt) ∧
          cast_mode = CastMode.saturated ∧ expand_to_next_full bitlen ≠ some bitlen) ∨
        (kind = PrimKind.boolean ∧ cast_mode = CastMode.saturated)) := by
  cases kind <;> cases cast_mode <;> simp only [type_to_c_type] at h
  case float.saturated =>
    split at h
    · cases h
    · obtain rfl := Option.some.inj h
      simp
  case float.truncated =>
    split at h
    · cases h
    · obtain rfl := Option.some.inj h
      simp
  case boolean.saturated =>
    obtain rfl := Option.some.inj h
    simp
  case boolean.truncated =>
    obtain rfl := Option.some.inj h
    simp
  case signedInt.saturated =>
    split at h
    · cases h
    · rename_i w hw
      obtain rfl := Option.some.inj h
      by_cases hwb : w = bitlen <;> simp [hw, hwb]
  case signedInt.truncated =>
    split at h
    · cases h
    · rename_i w hw
      obtain rfl := Option.some.inj h
      simp
  case unsignedInt.saturated =>
    split at h
    · cases h
    · rename_i w hw
      obtain rfl := Option.some.inj h
      by_cases hwb : w = bitlen <;> simp [hw, hwb]
  case unsignedInt.truncated =>
    split at h
    · cases h
    · rename_i w hw
      obtain rfl := Option.some.inj h
      simp

/-- Witness for `type_to_c_type_saturate_characterization` at an
unsigned 12-bit saturated field (expanded width 16 ≠ 12, saturate on). -/
theorem type_to_c_type_saturate_characterization_witness :
    type_to_c_type (DsdlType.primitive PrimKind.unsignedInt 12 CastMode.saturated) =
        some exampleU12CType ∧
      (exampleU12CType.saturate = true ↔
        (((PrimKind.unsignedInt = PrimKind.signedInt ∨
              PrimKind.unsignedInt = PrimKind.unsignedInt) ∧
            CastMode.saturated = CastMode.saturated ∧
            expand_to_next_full 12 ≠ some 12) ∨
          (PrimKind.unsignedInt = PrimKind.boolean ∧
            CastMode.saturated = CastMode.saturated))) :=
  ⟨by decide,
   type_to_c_type_saturate_characterization PrimKind.unsignedInt 12 CastMode.saturated
     exampleU12CType (by decide)⟩

/-! ## Claim about `write_generated_data` (C7) -/

/-- C7 fails on the code (contradicting `run`'s own docstring, which
promises lazy writes): even when the file already exists with exactly
the data being written, `write_generated_data` removes it and writes it
again — one `os.remove` and one `f.write`, never a byte comparison and
never a skipped write.  The content ends up unchanged but the
modification marker does not survive. -/
theorem write_generated_data_always_rewrites :
    (write_generated_data ⟨[("out.h", "X")]⟩ "out.h" "X" false false).2 =
        [FsEvent.removed "out.h", FsEvent.wrote "out.h" "X"] ∧
      (write_generated_data ⟨[("out.h", "X")]⟩ "out.h" "X" false false).2 ≠ [] ∧
      (write_generated_data ⟨[("out.h", "X")]⟩ "out.h" "X" false false).1 =
        ⟨[("out.h", "X")]⟩ := by
  decide

/-! ## Claims about `inject_cpp_types` (C9) -/

theorem inject_one_slots {L c : Nat} {a a2 : ParsedAttr}
    (h : inject_one L c a = some a2) :
    a2.last_item.isSome = true ∧ a2.cinfo.isSome = true ∧
      a2.type_category.isSome = true ∧ a2.void.isSome = true := by
  unfold inject_one at h
  dsimp only at h
  rcases htc : type_to_c_type a.type with _ | data
  · rw [htc] at h
    cases h
  · rw [htc] at h
    dsimp only at h
    split at h
    · split at h
      · split at h
        · obtain rfl := Option.some.inj h
          exact ⟨rfl, rfl, rfl, rfl⟩
        · cases h
      · obtain rfl := Option.some.inj h
        exact ⟨rfl, rfl, rfl, rfl⟩
    · split at h
      · split at h
        · obtain rfl := Option.some.inj h
          exact ⟨rfl, rfl, rfl, rfl⟩
        · cases h
      · obtain rfl := Option.some.inj h
        exact ⟨rfl, rfl, rfl, rfl⟩

theorem inject_cpp_types_go_slots (L : Nat) :
    ∀ (count : Nat) (attrs out : List ParsedAttr) (b : Bool),
      inject_cpp_types_go L count attrs = some (out, b) →
      ∀ a ∈ out, a.last_item.isSome = true ∧ a.cinfo.isSome = true ∧
        a.type_category.isSome = true ∧ a.void.isSome = true := by
  intro count attrs
  induction attrs generalizing count with
  | nil =>
    intro out b h a ha
    simp only [inject_cpp_types_go] at h
    obtain ⟨rfl, rfl⟩ : [] = out ∧ false = b := by
      have := Option.some.inj h
      exact ⟨congrArg Prod.fst this, congrArg Prod.snd this⟩
    cases ha
  | cons a0 rest ih =>
    intro out b h a ha
    simp only [inject_cpp_types_go] at h
    rcases h1 : inject_one L (count + 1) a0 with _ | a2
    · rw [h1] at h
      cases h
    · rw [h1] at h
      rcases h2 : inject_cpp_types_go L (count + 1) rest with _ | r
      · rw [h2] at h
        cases h
      · rw [h2] at h
        obtain ⟨hout, _⟩ : a2 :: r.1 = out ∧ (decide (a0.type.category = Category.array) || r.2) = b := by
          have := Option.some.inj h
          exact ⟨congrArg Prod.fst this, congrArg Prod.snd this⟩
        rw [← hout] at ha
        rcases List.mem_cons.1 ha with rfl | ha2
        · exact inject_one_slots h1
        · exact ih (count + 1) r.1 r.2 (by rw [h2]) a ha2

/-- C9 counterexample: processing a freshly parsed attribute hands back
a different object state — `inject_cpp_types` attaches `last_item`, the
`type_to_c_type` dictionary, `type_category` and `void` onto the parsed
attribute itself, so the Schema Parser's output is mutated in place. -/
theorem inject_cpp_types_changes_parsed_attributes :
    inject_cpp_types [exampleFreshAttr] = some ([exampleInjectedAttr], false) ∧
      exampleInjectedAttr ≠ exampleFreshAttr := by
  decide

/-- C9 amended: `inject_cpp_types` mutates the parsed attributes in
place: every attribute it returns carries the injected `last_item`,
resolved-type, `type_category` and `void` slots, and a nonempty
attribute list whose members lack `last_item` (as freshly parsed
objects do) never comes back unchanged. -/
theorem inject_cpp_types_sets_attributes
    (attributes out : List ParsedAttr) (has_array : Bool)
    (h : inject_cpp_types attributes = some (out, has_array)) :
    (∀ a ∈ out, a.last_item.isSome = true ∧ a.cinfo.isSome = true ∧
        a.type_category.isSome = true ∧ a.void.isSome = true) ∧
      (attributes ≠ [] → (∀ a ∈ attributes, a.last_item = none) → out ≠ attributes) := by
  constructor
  · exact inject_cpp_types_go_slots attributes.length 0 attributes out has_array h
  · intro hne hfresh heq
    cases attributes with
    | nil => exact hne rfl
    | cons a0 rest =>
      have ha0 : a0 ∈ out := heq ▸ List.mem_cons_self a0 rest
      obtain ⟨hsome, _⟩ :=
        inject_cpp_types_go_slots (a0 :: rest).length 0 (a0 :: rest) out has_array h a0 ha0
      rw [hfresh a0 (List.mem_cons_self a0 rest)] at hsome
      exact absurd hsome (by decide)

/-- Witness for `inject_cpp_types_sets_attributes` on a one-element
attribute list. -/
theorem inject_cpp_types_sets_attributes_witness :
    (∀ a ∈ [exampleInjectedAttr], a.last_item.isSome = true ∧ a.cinfo.isSome = true ∧
        a.type_category.isSome = true ∧ a.void.isSome = true) ∧
      ([exampleFreshAttr] ≠ [] → (∀ a ∈ [exampleFreshAttr], a.last_item = none) →
        [exampleInjectedAttr] ≠ [exampleFreshAttr]) :=
  inject_cpp_types_sets_attributes [exampleFreshAttr] [exampleInjectedAttr] false (by decide)

/-! ## Helper lemmas about `replaceAll` (Python `str.replace`) -/

theorem replaceAllAux_nil (pat rep : List Char) (fuel : Nat) :
    replaceAllAux pat rep fuel [] = [] := by
  cases fuel <;> rfl

theorem replaceAllAux_zero (pat rep : List Char) (s : List Char) :
    replaceAllAux pat rep 0 s = s := by
  cases s <;> rfl

theorem replaceAllAux_succ (pat rep : List Char) (fuel : Nat) (c : Char) (rest : List Char) :
    replaceAllAux pat rep (fuel + 1) (c :: rest) =
      if pat.isPrefixOf (c :: rest) then
        rep ++ replaceAllAux pat rep fuel ((c :: rest).drop pat.length)
      else c :: replaceAllAux pat rep fuel rest := rfl

/-- The fuel only bounds the number of steps; any fuel at least the
input length gives the same result (patterns are nonempty). -/
theorem replaceAllAux_fuel (pat rep : List Char) (hpat : pat ≠ []) :
    ∀ (fuel1 : Nat) (s : List Char) (fuel2 : Nat),
      s.length ≤ fuel1 → s.length ≤ fuel2 →
      replaceAllAux pat rep fuel1 s = replaceAllAux pat rep fuel2 s := by
  intro fuel1
  induction fuel1 with
  | zero =>
    intro s fuel2 h1 _
    have hs : s = [] := List.eq_nil_of_length_eq_zero (Nat.le_zero.1 h1)
    subst hs
    rw [replaceAllAux_nil, replaceAllAux_nil]
  | succ f ih =>
    intro s fuel2 h1 h2
    cases s with
    | nil => rw [replaceAllAux_nil, replaceAllAux_nil]
    | cons c rest =>
      cases fuel2 with
      | zero =>
        exfalso
        simp only [List.length_cons] at h2
        omega
      | succ f2 =>
        rw [replaceAllAux_succ, replaceAllAux_succ]
        have hplen : 1 ≤ pat.length := by
          cases pat with
          | nil => exact absurd rfl hpat
          | cons _ _ => simp
        by_cases hp : pat.isPrefixOf (c :: rest) = true
        · rw [if_pos hp, if_pos hp]
          refine congrArg (rep ++ ·) (ih _ _ ?_ ?_)
          · rw [List.length_drop]
            simp only [List.length_cons] at h1 ⊢
            omega
          · rw [List.length_drop]
            simp only [List.length_cons] at h2 ⊢
            omega
        · rw [if_neg hp, if_neg hp]
          refine congrArg (c :: ·) (ih _ _ ?_ ?_)
          · simp only [List.length_cons] at h1
            omega
          · simp only [List.length_cons] at h2
            omega

theorem isPrefixOf_subset :
    ∀ {pat s : List Char}, pat.isPrefixOf s = true → ∀ y ∈ pat, y ∈ s := by
  intro pat
  induction pat with
  | nil =>
    intro s _ y hy
    cases hy
  | cons p ps ih =>
    intro s h y hy
    cases s with
    | nil => simp [List.isPrefixOf] at h
    | cons c rest =>
      simp only [List.isPrefixOf, Bool.and_eq_true, beq_iff_eq] at h
      obtain ⟨rfl, h2⟩ := h
      rcases List.mem_cons.1 hy with rfl | hy2
      · exact List.mem_cons_self _ _
      · exact List.mem_cons_of_mem _ (ih h2 y hy2)

theorem replaceAllAux_no_match (pat rep : List Char) (x : Char) (hx : x ∈ pat) :
    ∀ (fuel : Nat) (s : List Char), x ∉ s → replaceAllAux pat rep fuel s = s := by
  intro fuel
  induction fuel with
  | zero => intro s _; exact replaceAllAux_zero pat rep s
  | succ f ih =>
    intro s hxs
    cases s with
    | nil => exact replaceAllAux_nil pat rep _
    | cons c rest =>
      rw [replaceAllAux_succ]
      have hnp : ¬(pat.isPrefixOf (c :: rest) = true) := by
        intro hp
        exact hxs (isPrefixOf_subset hp x hx)
      rw [if_neg hnp]
      exact congrArg (c :: ·) (ih rest (fun h => hxs (List.mem_cons_of_mem _ h)))

/-- A replacement whose pattern contains a character absent from the
text is a no-op. -/
theorem replaceAll_of_not_mem (pat rep : List Char) (x : Char) (hx : x ∈ pat)
    (s : List Char) (hs : x ∉ s) : replaceAll pat rep s = s :=
  replaceAllAux_no_match pat rep x hx s.length s hs

theorem replaceAll_cons_of_ne (p0 : Char) (ps rep : List Char) (c : Char) (hc : p0 ≠ c)
    (s : List Char) :
    replaceAll (p0 :: ps) rep (c :: s) = c :: replaceAll (p0 :: ps) rep s := by
  unfold replaceAll
  rw [show (c :: s).length = s.length + 1 from rfl, replaceAllAux_succ]
  have hnp : ¬((p0 :: ps).isPrefixOf (c :: s) = true) := by
    simp only [List.isPrefixOf, Bool.and_eq_true, beq_iff_eq]
    intro hcontra
    exact hc hcontra.1
  rw [if_neg hnp]

theorem isPrefixOf_newline_run {k m : Nat} (hkm : k ≤ m) (t : List Char) :
    (List.replicate k '\n').isPrefixOf (List.replicate m '\n' ++ t) = true := by
  induction k generalizing m with
  | zero => simp [List.isPrefixOf]
  | succ k ih =>
    cases m with
    | zero => omega
    | succ m =>
      simp only [List.replicate_succ, List.cons_append, List.isPrefixOf, Bool.and_eq_true,
        beq_self_eq_true, true_and]
      exact ih (by omega)

theorem isPrefixOf_newline_run_false {k m : Nat} (hmk : m < k) {d : Char} (hd : d ≠ '\n')
    (t : List Char) :
    (List.replicate k '\n').isPrefixOf (List.replicate m '\n' ++ d :: t) = false := by
  induction m generalizing k with
  | zero =>
    cases k with
    | zero => omega
    | succ k =>
      simp only [List.replicate_succ, List.replicate_zero, List.nil_append, List.isPrefixOf]
      have hbe : (('\n' : Char) == d) = false := beq_eq_false_iff_ne.2 (Ne.symm hd)
      rw [hbe, Bool.false_and]
  | succ m ih =>
    cases k with
    | zero => omega
    | succ k =>
      simp only [List.replicate_succ, List.cons_append, List.isPrefixOf, beq_self_eq_true,
        Bool.true_and]
      exact ih (by omega)

theorem collapseRun_of_lt {k m : Nat} (hmk : m < k) : collapseRun k m = m := by
  unfold collapseRun
  rw [Nat.div_eq_of_lt hmk, Nat.mod_eq_of_lt hmk]
  omega

theorem collapseRun_of_le {k m : Nat} (hk : 1 ≤ k) (hkm : k ≤ m) :
    collapseRun k m = 2 + collapseRun k (m - k) := by
  obtain ⟨r, rfl⟩ : ∃ r, m = r + k := ⟨m - k, by omega⟩
  have hr : r + k - k = r := by omega
  rw [hr]
  unfold collapseRun
  rw [Nat.add_div_right r hk, Nat.add_mod_right r k]
  generalize r / k = q
  generalize r % k = w
  omega

/-- The effect of one single-pass replacement of `k` newlines by two on
a maximal newline run: the run of `m` newlines (delimited on the right
by a non-newline character) becomes `collapseRun k m` newlines, and
scanning resumes after the delimiter. -/
theorem replaceAllAux_run {k : Nat} (hk : 1 ≤ k) {d : Char} (hd : d ≠ '\n') :
    ∀ (m : Nat) (t : List Char) (fuel : Nat),
      (List.replicate m '\n' ++ d :: t).length ≤ fuel →
      replaceAllAux (List.replicate k '\n') (newlines 2) fuel
          (List.replicate m '\n' ++ d :: t) =
        List.replicate (collapseRun k m) '\n' ++
          d :: replaceAllAux (List.replicate k '\n') (newlines 2) t.length t := by
  have hpatne : List.replicate k '\n' ≠ [] := by
    intro h0
    have := congrArg List.length h0
    simp only [List.length_replicate, List.length_nil] at this
    omega
  intro m
  induction m using Nat.strong_induction_on with
  | _ m ihm =>
    intro t fuel hfuel
    simp only [List.length_append, List.length_replicate, List.length_cons] at hfuel
    by_cases hkm : k ≤ m
    · cases fuel with
      | zero => omega
      | succ f =>
        obtain ⟨m1, rfl⟩ : ∃ m1, m = m1 + 1 := ⟨m - 1, by omega⟩
        rw [List.replicate_succ, List.cons_append, replaceAllAux_succ]
        have hp : (List.replicate k '\n').isPrefixOf
            ('\n' :: (List.replicate m1 '\n' ++ d :: t)) = true := by
          have h := isPrefixOf_newline_run (k := k) (m := m1 + 1) hkm (d :: t)
          rwa [List.replicate_succ, List.cons_append] at h
        rw [if_pos hp]
        have hdrop : ('\n' :: (List.replicate m1 '\n' ++ d :: t)).drop
            (List.replicate k '\n').length = List.replicate (m1 + 1 - k) '\n' ++ d :: t := by
          rw [List.length_replicate,
            show ('\n' :: (List.replicate m1 '\n' ++ d :: t)) =
              List.replicate (m1 + 1) '\n' ++ d :: t from by
                rw [List.replicate_succ, List.cons_append],
            List.drop_append_of_le_length (by simp; omega), List.drop_replicate]
        rw [hdrop]
        rw [ihm (m1 + 1 - k) (by omega) t f (by simp; omega)]
        rw [collapseRun_of_le hk hkm, List.replicate_add, List.append_assoc]
        rfl
    · cases m with
      | zero =>
        simp only [List.replicate_zero, List.nil_append] at hfuel ⊢
        cases fuel with
        | zero => omega
        | succ f =>
          rw [replaceAllAux_succ]
          have hnp : ¬((List.replicate k '\n').isPrefixOf (d :: t) = true) := by
            have h := isPrefixOf_newline_run_false (k := k) (m := 0) (by omega) hd t
            simp only [List.replicate_zero, List.nil_append] at h
            simp [h]
          rw [if_neg hnp, collapseRun_of_lt (by omega)]
          simp only [List.replicate_zero, List.nil_append]
          exact congrArg (d :: ·)
            (replaceAllAux_fuel _ _ hpatne f t t.length (by omega) (Nat.le_refl _))
      | succ m1 =>
        cases fuel with
        | zero => omega
        | succ f =>
          rw [List.replicate_succ, List.cons_append, replaceAllAux_succ]
          have hnp : ¬((List.replicate k '\n').isPrefixOf
              ('\n' :: (List.replicate m1 '\n' ++ d :: t)) = true) := by
            have h := isPrefixOf_newline_run_false (k := k) (m := m1 + 1) (by omega) hd t
            rw [List.replicate_succ, List.cons_append] at h
            simp [h]
          rw [if_neg hnp]
          rw [ihm m1 (by omega) t f (by simp; omega)]
          rw [collapseRun_of_lt (show m1 + 1 < k by omega),
            collapseRun_of_lt (show m1 < k by omega), List.replicate_succ, List.cons_append]

theorem replaceAll_run {k : Nat} (hk : 1 ≤ k) {d : Char} (hd : d ≠ '\n')
    (m : Nat) (t : List Char) :
    replaceAll (List.replicate k '\n') (newlines 2) (List.replicate m '\n' ++ d :: t) =
      List.replicate (collapseRun k m) '\n' ++
        d :: replaceAll (List.replicate k '\n') (newlines 2) t :=
  replaceAllAux_run hk hd m t _ (Nat.le_refl _)

/-! ## Helper lemmas about `pySplitlines`, `joinLines`, `pyRstrip` -/

theorem pySplitlinesAux_other (c : Char) (rest acc : List Char) (hr : c ≠ '\r')
    (hn : c ≠ '\n') :
    pySplitlinesAux (c :: rest) acc = pySplitlinesAux rest (c :: acc) := by
  cases rest with
  | nil =>
    simp only [pySplitlinesAux]
    rw [if_neg (show ¬(c = '\r' ∨ c = '\n') from fun h => h.elim hr hn)]
    simp
  | cons c2 rest2 =>
    simp only [pySplitlinesAux]
    rw [if_neg hr, if_neg hn]

theorem pySplitlinesAux_newline (rest acc : List Char) :
    pySplitlinesAux ('\n' :: rest) acc = acc.reverse :: pySplitlinesAux rest [] := by
  cases rest with
  | nil => simp [pySplitlinesAux]
  | cons c2 rest2 => simp [pySplitlinesAux]

theorem pySplitlinesAux_no_break :
    ∀ (s acc : List Char), (∀ c ∈ s, c ≠ '\r' ∧ c ≠ '\n') → (acc ≠ [] ∨ s ≠ []) →
      pySplitlinesAux s acc = [acc.reverse ++ s] := by
  intro s
  induction s with
  | nil =>
    intro acc _ hne
    rcases hne with hne | hne
    · simp only [pySplitlinesAux]
      rw [if_neg (by simp [List.isEmpty_iff, hne])]
      simp
    · exact absurd rfl hne
  | cons c rest ih =>
    intro acc hs _
    obtain ⟨hr, hn⟩ := hs c (List.mem_cons_self _ _)
    rw [pySplitlinesAux_other c rest acc hr hn,
      ih (c :: acc) (fun x hx => hs x (List.mem_cons_of_mem _ hx))
        (Or.inl (List.cons_ne_nil _ _))]
    simp

theorem pySplitlinesAux_newline_run (n : Nat) {b : Char} (hb1 : b ≠ '\r') (hb2 : b ≠ '\n') :
    pySplitlinesAux (List.replicate n '\n' ++ [b]) [] = List.replicate n [] ++ [[b]] := by
  induction n with
  | zero =>
    simp only [List.replicate_zero, List.nil_append]
    rw [pySplitlinesAux_other b [] [] hb1 hb2]
    simp [pySplitlinesAux]
  | succ n ih =>
    rw [List.replicate_succ, List.cons_append, pySplitlinesAux_newline, ih]
    simp [List.replicate_succ]

theorem joinLines_cons_cons (l l2 : List Char) (rest : List (List Char)) :
    joinLines (l :: l2 :: rest) = l ++ '\n' :: joinLines (l2 :: rest) := rfl

theorem joinLines_empties (n : Nat) (last : List Char) :
    ∀ first : List Char,
      joinLines (first :: (List.replicate n [] ++ [last])) =
        first ++ '\n' :: (List.replicate n '\n' ++ last) := by
  induction n with
  | zero =>
    intro first
    simp [joinLines]
  | succ n ih =>
    intro first
    rw [List.replicate_succ, List.cons_append, joinLines_cons_cons, ih []]
    simp [List.replicate_succ]

theorem mem_of_mem_dropWhile {p : Char → Bool} :
    ∀ {l : List Char} {c : Char}, c ∈ l.dropWhile p → c ∈ l := by
  intro l
  induction l with
  | nil =>
    intro c hc
    simp [List.dropWhile] at hc
  | cons a rest ih =>
    intro c hc
    simp only [List.dropWhile] at hc
    split at hc
    · exact List.mem_cons_of_mem _ (ih hc)
    · exact hc

theorem pyRstrip_subset (s : List Char) : ∀ c ∈ pyRstrip s, c ∈ s := by
  intro c hc
  unfold pyRstrip at hc
  rw [List.mem_reverse] at hc
  have h2 : c ∈ s.reverse := mem_of_mem_dropWhile hc
  rw [List.mem_reverse] at h2
  exact h2

theorem normalize_generated_text_eq (text : List Char) :
    normalize_generated_text text =
      replaceAll ['{', '\n', '\n', ' '] ['{', '\n', ' ']
        (replaceAll (newlines 3) (newlines 2)
          (replaceAll (newlines 4) (newlines 2)
            (replaceAll (newlines 5) (newlines 2)
              (joinLines ((pySplitlines text).map pyRstrip))))) := rfl

/-! ## Claims about the `generate_one_type` normalisation (C8) -/

/-- C8 counterexample: a run of exactly two blank lines (three
newlines) is NOT left as is — it is collapsed to one blank line — and a
run of twelve blank lines (13 newlines) is not collapsed to at most two
blank lines: four newlines (three blank lines) remain. -/
theorem generate_one_type_blank_line_policy_counterexample :
    normalize_generated_text ['a', '\n', '\n', '\n', 'b'] = ['a', '\n', '\n', 'b'] ∧
      normalize_generated_text ['a', '\n', '\n', '\n', 'b'] ≠ ['a', '\n', '\n', '\n', 'b'] ∧
      normalize_generated_text ('a' :: newlines 13 ++ ['b']) = 'a' :: newlines 4 ++ ['b'] := by
  decide

/-- C8 amended: the normalisation strips trailing whitespace from every
line, and rewrites every maximal run of newline characters through the
three successive single-pass replacements (five, four, then three
newlines become two): a run of `m` newlines becomes
`collapseRun 3 (collapseRun 4 (collapseRun 5 m))` newlines.  In
particular runs of three to five newlines (two to four blank lines)
become two newlines (one blank line) — so a run of two blank lines is
not preserved — and some longer runs keep more than two blank lines. -/
theorem generate_one_type_normalization_characterized :
    (∀ s : List Char, (∀ c ∈ s, c ≠ '\r' ∧ c ≠ '\n') → s ≠ [] →
        normalize_generated_text s = pyRstrip s) ∧
      (∀ n : Nat,
        normalize_generated_text ('a' :: ' ' :: '\t' :: (newlines (n + 1) ++ ['b'])) =
          'a' :: newlines (collapseRun 3 (collapseRun 4 (collapseRun 5 (n + 1)))) ++ ['b']) := by
  have hstep : ∀ k : Nat, 1 ≤ k → ∀ m : Nat,
      replaceAll (newlines k) (newlines 2) ('a' :: (List.replicate m '\n' ++ ['b'])) =
        'a' :: (List.replicate (collapseRun k m) '\n' ++ ['b']) := by
    intro k hk m
    obtain ⟨k1, rfl⟩ : ∃ k1, k = k1 + 1 := ⟨k - 1, by omega⟩
    rw [show newlines (k1 + 1) = '\n' :: List.replicate k1 '\n' from List.replicate_succ _ _,
      replaceAll_cons_of_ne '\n' _ _ 'a' (by decide) _, ← List.replicate_succ]
    rw [show (List.replicate m '\n' ++ ['b'] : List Char) =
      List.replicate m '\n' ++ 'b' :: [] from rfl]
    rw [replaceAll_run (by omega) (by decide) m []]
    rfl
  constructor
  · intro s hs hne
    rw [normalize_generated_text_eq]
    have h1 : pySplitlines s = [s] := by
      unfold pySplitlines
      rw [pySplitlinesAux_no_break s [] hs (Or.inr hne)]
      simp
    rw [h1]
    have hnl : '\n' ∉ pyRstrip s := fun h => ((hs '\n' (pyRstrip_subset s _ h)).2 rfl)
    rw [show (([s] : List (List Char)).map pyRstrip) = [pyRstrip s] from rfl,
      show joinLines [pyRstrip s] = pyRstrip s from rfl,
      replaceAll_of_not_mem (newlines 5) (newlines 2) '\n'
        (by simp [newlines, List.mem_replicate]) _ hnl,
      replaceAll_of_not_mem (newlines 4) (newlines 2) '\n'
        (by simp [newlines, List.mem_replicate]) _ hnl,
      replaceAll_of_not_mem (newlines 3) (newlines 2) '\n'
        (by simp [newlines, List.mem_replicate]) _ hnl,
      replaceAll_of_not_mem ['{', '\n', '\n', ' '] ['{', '\n', ' '] '\n' (by simp) _ hnl]
  · intro n
    rw [normalize_generated_text_eq]
    have h1 : pySplitlines ('a' :: ' ' :: '\t' :: (newlines (n + 1) ++ ['b'])) =
        ['a', ' ', '\t'] :: (List.replicate n [] ++ [['b']]) := by
      unfold pySplitlines
      rw [pySplitlinesAux_other 'a' _ [] (by decide) (by decide),
        pySplitlinesAux_other ' ' _ _ (by decide) (by decide),
        pySplitlinesAux_other '\t' _ _ (by decide) (by decide),
        show newlines (n + 1) = '\n' :: List.replicate n '\n' from List.replicate_succ _ _,
        List.cons_append, pySplitlinesAux_newline,
        pySplitlinesAux_newline_run n (by decide) (by decide)]
      rfl
    rw [h1]
    have h2 : (['a', ' ', '\t'] :: (List.replicate n [] ++ [['b']])).map pyRstrip =
        ['a'] :: (List.replicate n [] ++ [['b']]) := by
      simp only [List.map_cons, List.map_append, List.map_replicate, List.map_nil]
      rw [show pyRstrip ['a', ' ', '\t'] = ['a'] from by decide,
        show pyRstrip [] = [] from rfl,
        show pyRstrip ['b'] = ['b'] from by decide]
    rw [h2, joinLines_empties n ['b'] ['a']]
    rw [show (['a'] ++ '\n' :: (List.replicate n '\n' ++ ['b'])) =
      'a' :: (List.replicate (n + 1) '\n' ++ ['b']) from by simp [List.replicate_succ]]
    rw [hstep 5 (by omega) (n + 1), hstep 4 (by omega) _, hstep 3 (by omega) _]
    rw [replaceAll_of_not_mem ['{', '\n', '\n', ' '] ['{', '\n', ' '] '{'
      (List.mem_cons_self _ _) _
      (by simp [List.mem_cons, List.mem_append, List.mem_replicate])]
    rfl

/-- Witness for `generate_one_type_normalization_characterized`: a
one-line text loses its trailing space, and a run of three newlines
(two blank lines) collapses to `collapseRun 3 (collapseRun 4
(collapseRun 5 3)) = 2` newlines. -/
theorem generate_one_type_normalization_characterized_witness :
    normalize_generated_text ['a', ' '] = pyRstrip ['a', ' '] ∧
      normalize_generated_text ('a' :: ' ' :: '\t' :: (newlines 3 ++ ['b'])) =
        'a' :: newlines (collapseRun 3 (collapseRun 4 (collapseRun 5 3))) ++ ['b'] :=
  ⟨generate_one_type_normalization_characterized.1 ['a', ' '] (by decide) (by decide),
   generate_one_type_normalization_characterized.2 2⟩

end LibcanardSpec
